import Mathlib

/-!
Verification of the OpenCL kernel-generator indexing node
(`stan/math/opencl/kernel_generator/indexing.hpp`).

The expression graph is shallowly embedded as an inductive type `Expr` with two
node kinds: `load`, a leaf matrix access (the `load_` operation of the
framework, which is not among the sources shown and is therefore modelled from
the spec), and `indexing`, the `indexing_` node, translated from the source.
C++ object addresses, which the framework uses as deduplication keys, are
modelled as natural-number node identities (`nid`), following the spec's
design note that address keys correspond to stable arena indices.
-/

namespace StanMath

/-- Decidable equality of `Except` results, so that concrete runs of fallible
operations can be checked by `decide`. -/
instance {ε α : Type} [DecidableEq ε] [DecidableEq α] : DecidableEq (Except ε α) := by
  intro a b
  cases a <;> cases b
  case ok.ok x y =>
    exact if h : x = y then Decidable.isTrue (by rw [h])
      else Decidable.isFalse (by intro hc; cases hc; exact h rfl)
  case error.error x y =>
    exact if h : x = y then Decidable.isTrue (by rw [h])
      else Decidable.isFalse (by intro hc; cases hc; exact h rfl)
  case ok.error x y =>
    exact Decidable.isFalse (by intro hc; cases hc)
  case error.ok x y =>
    exact Decidable.isFalse (by intro hc; cases hc)

/-- Modelled from the spec: the dynamic-size sentinel `operation_cl::dynamic`
(referred to as `base::dynamic` in the indexing constructor); the base class is
not among the sources.  Sizes "may be a sentinel dynamic value" (spec §3/§4.1). -/
def dynamic : Int := -1

/-- Kernel generator expression trees.  `load nid buf data r c` is a leaf
reading matrix data from buffer `buf` with `r` rows and `c` columns;
`indexing nid mat rowIdx colIdx` is the `indexing_` node with its three
operands in constructor order (arg 0 = mat, arg 1 = row index, arg 2 = col
index). -/
inductive Expr where
  | load (nid : Nat) (buf : Nat) (data : List (List Int)) (r c : Int)
  | indexing (nid : Nat) (mat rowIdx colIdx : Expr)
deriving DecidableEq

namespace Expr

/-- Node identity (models the C++ object address used as dedup key). -/
def nid : Expr → Nat
  | .load n _ _ _ _ => n
  | .indexing n _ _ _ => n

/-- Number of rows.  For the indexing node this is
`std::max(get_arg<1>().rows(), get_arg<2>().rows())` (src lines 175-178). -/
def rows : Expr → Int
  | .load _ _ _ r _ => r
  | .indexing _ _ rowIdx colIdx => max rowIdx.rows colIdx.rows

/-- Number of columns.  For the indexing node this is
`std::max(get_arg<1>().cols(), get_arg<2>().cols())` (src lines 185-188). -/
def cols : Expr → Int
  | .load _ _ _ _ c => c
  | .indexing _ _ rowIdx colIdx => max rowIdx.cols colIdx.cols

/-- All node identities occurring in an expression tree. -/
def ids : Expr → List Nat
  | .load n _ _ _ _ => [n]
  | .indexing n m rowIdx colIdx => n :: (m.ids ++ rowIdx.ids ++ colIdx.ids)

/-- All buffers occurring in an expression tree. -/
def bufs : Expr → List Nat
  | .load _ b _ _ _ => [b]
  | .indexing _ m rowIdx colIdx => m.bufs ++ rowIdx.bufs ++ colIdx.bufs

end Expr

/-- Modelled from the spec (§6): the shape-mismatch reporting utility
`check_size_match` fails with an invalid-dimension error exactly when the two
compared values differ; its own source is not among the files shown. -/
def check_size_match (i j : Int) : Except String Unit :=
  if i = j then Except.ok () else Except.error "invalid_argument: size mismatch"

/-- Shape check performed by the `indexing_` constructor (src lines 55-65):
the row counts of the two index operands are compared when neither is the
dynamic sentinel, and then the column counts likewise.  A failure of the first
check propagates (the C++ check throws), so the second comparison is
short-circuited by `bind`. -/
def ctorCheck (rowIdx colIdx : Expr) : Except String Unit :=
  (if colIdx.rows ≠ dynamic ∧ rowIdx.rows ≠ dynamic
      then check_size_match colIdx.rows rowIdx.rows
      else Except.ok ()).bind
    (fun _ =>
      if colIdx.cols ≠ dynamic ∧ rowIdx.cols ≠ dynamic
      then check_size_match colIdx.cols rowIdx.cols
      else Except.ok ())

/-- The `indexing_` constructor: runs the shape check of src lines 55-65 and,
when it passes, produces the node (with a given fresh identity `n`). -/
def mkIndexing (n : Nat) (mat rowIdx colIdx : Expr) : Except String Expr :=
  (ctorCheck rowIdx colIdx).map (fun _ => Expr.indexing n mat rowIdx colIdx)

/-- Row counts of the two index operands agree whenever both are concrete. -/
def rowsAgree (rowIdx colIdx : Expr) : Prop :=
  colIdx.rows = dynamic ∨ rowIdx.rows = dynamic ∨ colIdx.rows = rowIdx.rows

/-- Column counts of the two index operands agree whenever both are concrete. -/
def colsAgree (rowIdx colIdx : Expr) : Prop :=
  colIdx.cols = dynamic ∨ rowIdx.cols = dynamic ∨ colIdx.cols = rowIdx.cols

instance (rowIdx colIdx : Expr) : Decidable (rowsAgree rowIdx colIdx) := by
  unfold rowsAgree; infer_instance

instance (rowIdx colIdx : Expr) : Decidable (colsAgree rowIdx colIdx) := by
  unfold colsAgree; infer_instance

lemma ctorCheck_ok_iff (rowIdx colIdx : Expr) :
    ctorCheck rowIdx colIdx = Except.ok () ↔
      rowsAgree rowIdx colIdx ∧ colsAgree rowIdx colIdx := by
  unfold ctorCheck check_size_match rowsAgree colsAgree
  by_cases h1 : colIdx.rows = dynamic <;>
    by_cases h2 : rowIdx.rows = dynamic <;>
      by_cases h3 : colIdx.cols = dynamic <;>
        by_cases h4 : rowIdx.cols = dynamic <;>
          by_cases h5 : colIdx.rows = rowIdx.rows <;>
            by_cases h6 : colIdx.cols = rowIdx.cols <;>
              simp [h1, h2, h3, h4, h5, h6, Except.bind]

lemma ctorCheck_ok_or_error (rowIdx colIdx : Expr) :
    ctorCheck rowIdx colIdx = Except.ok ()
      ∨ ∃ msg, ctorCheck rowIdx colIdx = Except.error msg := by
  cases h : ctorCheck rowIdx colIdx with
  | ok u => cases u; exact Or.inl rfl
  | error msg => exact Or.inr ⟨msg, rfl⟩

/-- C2.  Constructing an `indexing_` node succeeds exactly when, on each of the
two axes, the two index operands' sizes agree or at least one of them is the
dynamic sentinel; otherwise the construction fails with the invalid-dimension
error and no node is produced.  The check happens inside the constructor, i.e.
synchronously at tree-construction time. -/
theorem c2_ctor_shape_check (n : Nat) (mat rowIdx colIdx : Expr) :
    (mkIndexing n mat rowIdx colIdx = Except.ok (Expr.indexing n mat rowIdx colIdx)
        ↔ rowsAgree rowIdx colIdx ∧ colsAgree rowIdx colIdx)
      ∧ ((∃ msg, mkIndexing n mat rowIdx colIdx = Except.error msg)
        ↔ ¬(rowsAgree rowIdx colIdx ∧ colsAgree rowIdx colIdx)) := by
  constructor
  · constructor
    · intro h
      rw [← ctorCheck_ok_iff]
      rcases ctorCheck_ok_or_error rowIdx colIdx with hok | ⟨msg, herr⟩
      · exact hok
      · rw [mkIndexing, herr] at h; exact absurd h (by simp [Except.map])
    · intro h
      rw [mkIndexing, (ctorCheck_ok_iff rowIdx colIdx).mpr h]; rfl
  · constructor
    · rintro ⟨msg, h⟩ hagree
      rw [mkIndexing, (ctorCheck_ok_iff rowIdx colIdx).mpr hagree] at h
      exact absurd h (by simp [Except.map])
    · intro h
      rcases ctorCheck_ok_or_error rowIdx colIdx with hok | ⟨msg, herr⟩
      · exact absurd ((ctorCheck_ok_iff rowIdx colIdx).mp hok) h
      · exact ⟨msg, by rw [mkIndexing, herr]; rfl⟩

/-- C6.  For every legally constructed indexing node, `rows()` is the maximum
of the two index operands' row counts and `cols()` the maximum of their column
counts (src lines 175-188; the matrix operand plays no part). -/
theorem c6_shape_is_max (n : Nat) (mat rowIdx colIdx e : Expr)
    (h : mkIndexing n mat rowIdx colIdx = Except.ok e) :
    e.rows = max rowIdx.rows colIdx.rows ∧ e.cols = max rowIdx.cols colIdx.cols := by
  have he : e = Expr.indexing n mat rowIdx colIdx := by
    rw [mkIndexing] at h
    rcases ctorCheck_ok_or_error rowIdx colIdx with hok | ⟨msg, herr⟩
    · rw [hok] at h
      simpa [Except.map] using h.symm
    · rw [herr] at h
      exact absurd h (by simp [Except.map])
  subst he
  exact ⟨rfl, rfl⟩

/-- Witness for C6: a 2-rows/dynamic-columns index paired with a concrete 2x2
index constructs legally (the dynamic axis is exempt from the check) and the
resulting shape is the component-wise maximum, broadcasting over the dynamic
axis. -/
theorem c6_shape_is_max_witness :
    mkIndexing 7 (Expr.load 0 0 [[1]] 1 1) (Expr.load 1 1 [[0], [0]] 2 (-1))
        (Expr.load 2 2 [[0, 0], [0, 0]] 2 2)
      = Except.ok (Expr.indexing 7 (Expr.load 0 0 [[1]] 1 1)
          (Expr.load 1 1 [[0], [0]] 2 (-1)) (Expr.load 2 2 [[0, 0], [0, 0]] 2 2))
    ∧ (Expr.indexing 7 (Expr.load 0 0 [[1]] 1 1) (Expr.load 1 1 [[0], [0]] 2 (-1))
          (Expr.load 2 2 [[0, 0], [0, 0]] 2 2)).rows = 2
    ∧ (Expr.indexing 7 (Expr.load 0 0 [[1]] 1 1) (Expr.load 1 1 [[0], [0]] 2 (-1))
          (Expr.load 2 2 [[0, 0], [0, 0]] 2 2)).cols = 2 := by
  refine ⟨by decide, ?_, ?_⟩
  · have h := c6_shape_is_max 7 (Expr.load 0 0 [[1]] 1 1)
      (Expr.load 1 1 [[0], [0]] 2 (-1)) (Expr.load 2 2 [[0, 0], [0, 0]] 2 2)
      (Expr.indexing 7 (Expr.load 0 0 [[1]] 1 1) (Expr.load 1 1 [[0], [0]] 2 (-1))
        (Expr.load 2 2 [[0, 0], [0, 0]] 2 2)) (by decide)
    rw [h.1]; decide
  · have h := c6_shape_is_max 7 (Expr.load 0 0 [[1]] 1 1)
      (Expr.load 1 1 [[0], [0]] 2 (-1)) (Expr.load 2 2 [[0, 0], [0, 0]] 2 2)
      (Expr.indexing 7 (Expr.load 0 0 [[1]] 1 1) (Expr.load 1 1 [[0], [0]] 2 (-1))
        (Expr.load 2 2 [[0, 0], [0, 0]] 2 2)) (by decide)
    rw [h.2]; decide

/-! ### View propagation (`set_view`) -/

/-- Smallest `int` value, `std::numeric_limits<int>::min()`. -/
def intMin : Int := -2147483648

/-- Largest `int` value, `std::numeric_limits<int>::max()`. -/
def intMax : Int := 2147483647

/-- One recorded `set_view` invocation arriving at a leaf: the leaf's node
identity together with the four diagonal-range arguments it received. -/
structure ViewCall where
  target : Nat
  bottomDiagonal : Int
  topDiagonal : Int
  bottomZeroDiagonal : Int
  topZeroDiagonal : Int
deriving DecidableEq

/-- Trace of `set_view` invocations.  A leaf applies the requested range to the
matrix it owns — modelled from the spec (§4.1), since `load_` is not among the
sources — recorded as one call targeting the leaf.  The indexing node
(src lines 203-208) calls `set_view` on the matrix operand (arg 0) with
`numeric_limits<int>::min()`/`max()` for both diagonal pairs, ignoring its own
arguments, and touches no other operand. -/
def setViewCalls : Expr → Int → Int → Int → Int → List ViewCall
  | .load n _ _ _ _, b, t, bz, tz => [⟨n, b, t, bz, tz⟩]
  | .indexing _ m _ _, _, _, _, _ => setViewCalls m intMin intMax intMin intMax

lemma setViewCalls_target_mem (e : Expr) (b t bz tz : Int) :
    ∀ v ∈ setViewCalls e b t bz tz, v.target ∈ e.ids := by
  induction e generalizing b t bz tz with
  | load n buf d r c =>
    intro v hv
    simp only [setViewCalls, List.mem_singleton] at hv
    subst hv
    simp [Expr.ids]
  | indexing n m rowIdx colIdx ihm ihr ihc =>
    intro v hv
    simp only [setViewCalls] at hv
    have := ihm intMin intMax intMin intMax v hv
    simp [Expr.ids, this]

lemma setViewCalls_entire (e : Expr) :
    ∀ v ∈ setViewCalls e intMin intMax intMin intMax,
      v.bottomDiagonal = intMin ∧ v.topDiagonal = intMax
        ∧ v.bottomZeroDiagonal = intMin ∧ v.topZeroDiagonal = intMax := by
  induction e with
  | load n buf d r c =>
    intro v hv
    simp only [setViewCalls, List.mem_singleton] at hv
    subst hv
    exact ⟨rfl, rfl, rfl, rfl⟩
  | indexing n m rowIdx colIdx ihm ihr ihc =>
    intro v hv
    simp only [setViewCalls] at hv
    exact ihm v hv

/-- C5.  `set_view` on an indexing node invokes `set_view` on the matrix
operand with the fully unrestricted bounds (`numeric_limits<int>::min()` for
both bottom diagonals, `max()` for both top diagonals), whatever the four
arguments were; consequently every leaf reached below the matrix operand
receives the unrestricted range. -/
theorem c5_set_view_forces_entire (n : Nat) (m rowIdx colIdx : Expr)
    (b t bz tz : Int) :
    setViewCalls (Expr.indexing n m rowIdx colIdx) b t bz tz
        = setViewCalls m intMin intMax intMin intMax
      ∧ ∀ v ∈ setViewCalls (Expr.indexing n m rowIdx colIdx) b t bz tz,
          v.bottomDiagonal = intMin ∧ v.topDiagonal = intMax
            ∧ v.bottomZeroDiagonal = intMin ∧ v.topZeroDiagonal = intMax := by
  constructor
  · rfl
  · intro v hv
    exact setViewCalls_entire m v hv

/-- C10.  `set_view` on an indexing node reaches only nodes of the matrix
operand's subtree: every recorded invocation targets an identity of the matrix
operand, so any node of the row-index or column-index subtree (distinct from
the matrix subtree) is left untouched. -/
theorem c10_set_view_frame (n : Nat) (m rowIdx colIdx : Expr)
    (b t bz tz : Int) (k : Nat)
    (_hk : k ∈ rowIdx.ids ∨ k ∈ colIdx.ids) (hnotm : k ∉ m.ids) :
    (∀ v ∈ setViewCalls (Expr.indexing n m rowIdx colIdx) b t bz tz,
        v.target ∈ m.ids)
      ∧ ∀ v ∈ setViewCalls (Expr.indexing n m rowIdx colIdx) b t bz tz,
          v.target ≠ k := by
  constructor
  · intro v hv
    exact setViewCalls_target_mem m intMin intMax intMin intMax v hv
  · intro v hv hvk
    exact hnotm (hvk ▸ setViewCalls_target_mem m intMin intMax intMin intMax v hv)

/-- Witness for C10: with a concrete tree whose index subtrees are disjoint
from the matrix subtree, no `set_view` call targets an index node. -/
theorem c10_set_view_frame_witness :
    ((1 : Nat) ∈ (Expr.load 1 1 [[0]] 1 1).ids ∨ (1 : Nat) ∈ (Expr.load 2 2 [[0]] 1 1).ids)
    ∧ (1 : Nat) ∉ (Expr.load 0 0 [[5]] 1 1).ids
    ∧ ∀ v ∈ setViewCalls (Expr.indexing 3 (Expr.load 0 0 [[5]] 1 1)
          (Expr.load 1 1 [[0]] 1 1) (Expr.load 2 2 [[0]] 1 1)) 0 0 0 0,
        v.target ≠ 1 := by
  refine ⟨by decide, by decide, ?_⟩
  exact (c10_set_view_frame 3 (Expr.load 0 0 [[5]] 1 1) (Expr.load 1 1 [[0]] 1 1)
    (Expr.load 2 2 [[0]] 1 1) 0 0 0 0 1 (by decide) (by decide)).2

/-! ### Event registration -/

/-- Mode of an event registration on a buffer. -/
inductive EvMode where
  | readMode
  | writeMode
deriving DecidableEq

/-- Trace of `add_read_event`: registrations `(buffer, mode, event)` produced
by registering event `e` as a read on every buffer the node transitively reads.
Modelled from the spec (§4.1): the indexing node inherits the base-class
behaviour (forward to all operands), which is not among the sources. -/
def addReadEvent : Expr → Nat → List (Nat × EvMode × Nat)
  | .load _ b _ _ _, e => [(b, EvMode.readMode, e)]
  | .indexing _ m rowIdx colIdx, e =>
    addReadEvent m e ++ addReadEvent rowIdx e ++ addReadEvent colIdx e

/-- Trace of `add_write_event`.  The leaf registers a write on its own buffer
(modelled from the spec).  The indexing node (src lines 237-241) adds a *read*
event to the row-index operand (arg 1), then a read event to the column-index
operand (arg 2), and a *write* event to the matrix operand (arg 0). -/
def addWriteEvent : Expr → Nat → List (Nat × EvMode × Nat)
  | .load _ b _ _ _, e => [(b, EvMode.writeMode, e)]
  | .indexing _ m rowIdx colIdx, e =>
    addReadEvent rowIdx e ++ addReadEvent colIdx e ++ addWriteEvent m e

lemma addReadEvent_only_reads (e : Expr) (ev : Nat) :
    ∀ p ∈ addReadEvent e ev, p.2.1 = EvMode.readMode := by
  induction e with
  | load n b d r c =>
    intro p hp
    simp only [addReadEvent, List.mem_singleton] at hp
    subst hp; rfl
  | indexing n m rowIdx colIdx ihm ihr ihc =>
    intro p hp
    simp only [addReadEvent, List.mem_append] at hp
    rcases hp with (hp | hp) | hp
    · exact ihm p hp
    · exact ihr p hp
    · exact ihc p hp

/-- C9.  `add_write_event` on an indexing node registers the event as a read
on the row-index operand and the column-index operand and forwards a write
registration only to the matrix operand; no write-mode registration ever
originates from the two index operands. -/
theorem c9_write_event_split (n : Nat) (m rowIdx colIdx : Expr) (ev : Nat) :
    addWriteEvent (Expr.indexing n m rowIdx colIdx) ev
        = addReadEvent rowIdx ev ++ addReadEvent colIdx ev ++ addWriteEvent m ev
      ∧ ∀ p ∈ addReadEvent rowIdx ev ++ addReadEvent colIdx ev,
          p.2.1 = EvMode.readMode := by
  constructor
  · rfl
  · intro p hp
    rcases List.mem_append.mp hp with hp | hp
    · exact addReadEvent_only_reads rowIdx ev p hp
    · exact addReadEvent_only_reads colIdx ev p hp

/-! ### Code generation and argument binding -/

/-- Pointwise update of a function-keyed store (the model of writing one
map entry or one mutable member). -/
def upd {α : Type} (f : Nat → α) (k : Nat) (v : α) : Nat → α :=
  fun x => if x = k then v else f x

@[simp] lemma upd_same {α : Type} (f : Nat → α) (k : Nat) (v : α) :
    upd f k v k = v := by simp [upd]

lemma upd_other {α : Type} (f : Nat → α) (k x : Nat) (v : α) (h : x ≠ k) :
    upd f k v x = f x := by simp [upd, h]

/-- Mutable per-node code-generation state threaded through a compilation
pass: `varNames` models each node's `var_name_` member, `privs` models each
indexing node's private `generated_` member map (the list of identities it
holds), and `ctr` the name generator counter. -/
structure GenState where
  varNames : Nat → String
  privs : Nat → List Nat
  ctr : Nat

lemma GenState.ext_parts {s s' : GenState} (hv : s.varNames = s'.varNames)
    (hp : s.privs = s'.privs) (hc : s.ctr = s'.ctr) : s = s' := by
  cases s; cases s'; cases hv; cases hp; cases hc; rfl

/-- Which dedup map a recursive operand visit runs against: the caller's
(outer) map, or a private scope of the visiting node. -/
inductive Scope where
  | outer
  | privScope
deriving DecidableEq

/-- One operand visit: `parent` visits its operand `child` against the map
described by `scope`. -/
structure Visit where
  parent : Nat
  child : Nat
  scope : Scope
deriving DecidableEq

/-- A generated code atom: the emitting leaf plus the row/col index names in
scope when it was emitted, and whether it came from the assignment path. -/
structure Frag where
  nid : Nat
  row : String
  col : String
  lhs : Bool
deriving DecidableEq

/-- Result of one code-generation call: the emitted fragments (`kernel_parts`),
the trace of operand visits, the dedup map after the call, and the state after
the call. -/
structure GenRes where
  parts : List Frag
  tr : List Visit
  dedup : List Nat
  st : GenState

/-- Model of `get_kernel_parts` (read path).  The leaf: modelled from the spec
(§4.1/§8) — on first generation it records itself in the dedup map, draws a
fresh variable name, and emits one fragment referencing the row/col index
names in scope; when its identity is already present it returns an empty
fragment and changes nothing.  The indexing node: src lines 92-116 — if the
identity is already in `generated` the result is empty (`res{}`); otherwise it
records itself, clears the private member `generated_`, generates the row
index then the column index against the caller's map, then generates the
matrix operand against `generated_` with the two index expressions' variable
names substituted for the row/col index names, stores `generated_` back, and
aliases its own `var_name_` to the matrix operand's. -/
def genParts : Expr → List Nat → GenState → String → String → Bool → GenRes
  | .load n _ _ _ _, d, st, rn, cn, _ =>
    if n ∈ d then ⟨[], [], d, st⟩
    else ⟨[⟨n, rn, cn, false⟩], [], n :: d,
          ⟨upd st.varNames n ("v" ++ toString st.ctr), st.privs, st.ctr + 1⟩⟩
  | .indexing n m rowIdx colIdx, d, st, rn, cn, vh =>
    if n ∈ d then ⟨[], [], d, st⟩
    else
      let st0 : GenState := ⟨st.varNames, upd st.privs n [], st.ctr⟩
      let rR := genParts rowIdx (n :: d) st0 rn cn vh
      let cR := genParts colIdx rR.dedup rR.st rn cn vh
      let mR := genParts m (cR.st.privs n) cR.st
        (cR.st.varNames rowIdx.nid) (cR.st.varNames colIdx.nid) false
      ⟨rR.parts ++ cR.parts ++ mR.parts,
       ⟨n, rowIdx.nid, Scope.outer⟩ :: (rR.tr
         ++ ⟨n, colIdx.nid, Scope.outer⟩ :: (cR.tr
           ++ ⟨n, m.nid, Scope.privScope⟩ :: mR.tr)),
       cR.dedup,
       ⟨upd mR.st.varNames n (mR.st.varNames m.nid),
        upd mR.st.privs n mR.dedup, mR.st.ctr⟩⟩

/-- Model of `get_kernel_parts_lhs` (write path).  The leaf: modelled from the
spec, idempotent like the read path but emitting an assignable-reference
fragment.  The indexing node: src lines 127-149 — the dedup-membership test
only guards recording the identity and clearing `generated_`; the row index
and column index are then generated via the *read* path against the caller's
map with `view_handled` forced false, the matrix operand via the write path
against `generated_` with the index variable names substituted, `generated_`
is stored back, and `var_name_` aliases the matrix operand's name. -/
def lhsParts : Expr → List Nat → GenState → String → String → GenRes
  | .load n _ _ _ _, d, st, rn, cn =>
    if n ∈ d then ⟨[], [], d, st⟩
    else ⟨[⟨n, rn, cn, true⟩], [], n :: d,
          ⟨upd st.varNames n ("v" ++ toString st.ctr), st.privs, st.ctr + 1⟩⟩
  | .indexing n m rowIdx colIdx, d, st, rn, cn =>
    let d0 := if n ∈ d then d else n :: d
    let st0 : GenState := if n ∈ d then st else ⟨st.varNames, upd st.privs n [], st.ctr⟩
    let rR := genParts rowIdx d0 st0 rn cn false
    let cR := genParts colIdx rR.dedup rR.st rn cn false
    let mR := lhsParts m (cR.st.privs n) cR.st
      (cR.st.varNames rowIdx.nid) (cR.st.varNames colIdx.nid)
    ⟨rR.parts ++ cR.parts ++ mR.parts,
     ⟨n, rowIdx.nid, Scope.outer⟩ :: (rR.tr
       ++ ⟨n, colIdx.nid, Scope.outer⟩ :: (cR.tr
         ++ ⟨n, m.nid, Scope.privScope⟩ :: mR.tr)),
     cR.dedup,
     ⟨upd mR.st.varNames n (mR.st.varNames m.nid),
      upd mR.st.privs n mR.dedup, mR.st.ctr⟩⟩

/-- Result of one argument-binding call: the identities whose runtime data was
bound (in binding order), the visit trace and the dedup map after the call. -/
structure SetRes where
  args : List Nat
  tr : List Visit
  dedup : List Nat

/-- Model of `set_args`.  The leaf: modelled from the spec (§4.1) — binds its
buffer and dimension arguments once per dedup map.  The indexing node: src
lines 159-168 — when its identity is absent it records itself, binds the row
index then the column index against the caller's map, and binds the matrix
operand against a *fresh* local map `generated2`; additions to that local map
are discarded. -/
def setArgs : Expr → List Nat → SetRes
  | .load n _ _ _ _, d =>
    if n ∈ d then ⟨[], [], d⟩ else ⟨[n], [], n :: d⟩
  | .indexing n m rowIdx colIdx, d =>
    if n ∈ d then ⟨[], [], d⟩
    else
      let rR := setArgs rowIdx (n :: d)
      let cR := setArgs colIdx rR.dedup
      let mR := setArgs m []
      ⟨rR.args ++ cR.args ++ mR.args,
       ⟨n, rowIdx.nid, Scope.outer⟩ :: (rR.tr
         ++ ⟨n, colIdx.nid, Scope.outer⟩ :: (cR.tr
           ++ ⟨n, m.nid, Scope.privScope⟩ :: mR.tr)),
       cR.dedup⟩

lemma gen_of_mem (e : Expr) (d : List Nat) (st : GenState) (rn cn : String)
    (vh : Bool) (h : e.nid ∈ d) :
    genParts e d st rn cn vh = ⟨[], [], d, st⟩ := by
  cases e <;> simp [genParts, Expr.nid] at h ⊢ <;> simp [h]

lemma gen_dedup_mono (e : Expr) (d : List Nat) (st : GenState) (rn cn : String)
    (vh : Bool) : d ⊆ (genParts e d st rn cn vh).dedup := by
  induction e generalizing d st rn cn vh with
  | load n b dat r c =>
    by_cases h : n ∈ d
    · simp [genParts, h]
    · simp only [genParts, if_neg h]
      exact fun x hx => List.mem_cons_of_mem _ hx
  | indexing n m rowIdx colIdx ihm ihr ihc =>
    by_cases h : n ∈ d
    · simp [genParts, h]
    · simp only [genParts, if_neg h]
      intro x hx
      exact ihc _ _ _ _ _ (ihr _ _ _ _ _ (List.mem_cons_of_mem _ hx))

lemma gen_nid_mem (e : Expr) (d : List Nat) (st : GenState) (rn cn : String)
    (vh : Bool) : e.nid ∈ (genParts e d st rn cn vh).dedup := by
  cases e with
  | load n b dat r c =>
    by_cases h : n ∈ d <;> simp [genParts, Expr.nid, h]
  | indexing n m rowIdx colIdx =>
    by_cases h : n ∈ d
    · simp [genParts, Expr.nid, h]
    · simp only [genParts, Expr.nid, if_neg h]
      exact gen_dedup_mono colIdx _ _ _ _ _
        (gen_dedup_mono rowIdx _ _ _ _ _ (List.mem_cons_self _ _))

lemma gen_state_frame_out (e : Expr) :
    ∀ (d : List Nat) (st : GenState) (rn cn : String) (vh : Bool) (k : Nat),
      k ∉ e.ids →
        (genParts e d st rn cn vh).st.varNames k = st.varNames k
          ∧ (genParts e d st rn cn vh).st.privs k = st.privs k := by
  induction e with
  | load n b dat r c =>
    intro d st rn cn vh k hk
    have hkn : k ≠ n := by simpa [Expr.ids] using hk
    by_cases h : n ∈ d
    · simp [genParts, h]
    · refine ⟨?_, ?_⟩ <;> simp [genParts, if_neg h, upd, hkn]
  | indexing n m rowIdx colIdx ihm ihr ihc =>
    intro d st rn cn vh k hk
    have hkn : k ≠ n := fun h' => hk (by simp [Expr.ids, h'])
    have hkm : k ∉ m.ids := fun h' => hk (by simp [Expr.ids, h'])
    have hkr : k ∉ rowIdx.ids := fun h' => hk (by simp [Expr.ids, h'])
    have hkc : k ∉ colIdx.ids := fun h' => hk (by simp [Expr.ids, h'])
    by_cases h : n ∈ d
    · simp [genParts, h]
    · simp only [genParts, if_neg h]
      refine ⟨?_, ?_⟩
      · rw [upd_other _ _ _ _ hkn, (ihm _ _ _ _ _ k hkm).1, (ihc _ _ _ _ _ k hkc).1,
          (ihr _ _ _ _ _ k hkr).1]
      · rw [upd_other _ _ _ _ hkn, (ihm _ _ _ _ _ k hkm).2, (ihc _ _ _ _ _ k hkc).2,
          (ihr _ _ _ _ _ k hkr).2]
        exact upd_other _ _ _ _ hkn

lemma gen_trace_parents (e : Expr) (d : List Nat) (st : GenState)
    (rn cn : String) (vh : Bool) :
    ∀ v ∈ (genParts e d st rn cn vh).tr, v.parent ∈ e.ids := by
  induction e generalizing d st rn cn vh with
  | load n b dat r c =>
    by_cases h : n ∈ d <;> simp [genParts, h]
  | indexing n m rowIdx colIdx ihm ihr ihc =>
    by_cases h : n ∈ d
    · simp [genParts, h]
    · simp only [genParts, if_neg h]
      intro v hv
      simp only [Expr.ids, List.mem_cons, List.mem_append]
      simp only [List.mem_cons, List.mem_append] at hv
      rcases hv with hv | hv | hv | hv | hv | hv <;>
        first
          | (subst hv; simp)
          | (have hmem := ihm _ _ _ _ _ v hv; tauto)
          | (have hmem := ihr _ _ _ _ _ v hv; tauto)
          | (have hmem := ihc _ _ _ _ _ v hv; tauto)

lemma lhs_trace_parents (e : Expr) (d : List Nat) (st : GenState)
    (rn cn : String) :
    ∀ v ∈ (lhsParts e d st rn cn).tr, v.parent ∈ e.ids := by
  induction e generalizing d st rn cn with
  | load n b dat r c =>
    by_cases h : n ∈ d <;> simp [lhsParts, h]
  | indexing n m rowIdx colIdx ihm ihr ihc =>
    simp only [lhsParts]
    intro v hv
    simp only [Expr.ids, List.mem_cons, List.mem_append]
    simp only [List.mem_cons, List.mem_append] at hv
    rcases hv with hv | hv | hv | hv | hv | hv <;>
      first
        | (subst hv; simp)
        | (have hmem := ihm _ _ _ _ v hv; tauto)
        | (have hmem := gen_trace_parents rowIdx _ _ _ _ _ v hv; tauto)
        | (have hmem := gen_trace_parents colIdx _ _ _ _ _ v hv; tauto)

lemma setArgs_trace_parents (e : Expr) (d : List Nat) :
    ∀ v ∈ (setArgs e d).tr, v.parent ∈ e.ids := by
  induction e generalizing d with
  | load n b dat r c =>
    by_cases h : n ∈ d <;> simp [setArgs, h]
  | indexing n m rowIdx colIdx ihm ihr ihc =>
    by_cases h : n ∈ d
    · simp [setArgs, h]
    · simp only [setArgs, if_neg h]
      intro v hv
      simp only [Expr.ids, List.mem_cons, List.mem_append]
      simp only [List.mem_cons, List.mem_append] at hv
      rcases hv with hv | hv | hv | hv | hv | hv <;>
        first
          | (subst hv; simp)
          | (have hmem := ihm _ v hv; tauto)
          | (have hmem := ihr _ v hv; tauto)
          | (have hmem := ihc _ v hv; tauto)

lemma filter_parent_eq_nil (t : List Visit) (n : Nat) (l : List Nat)
    (hall : ∀ v ∈ t, v.parent ∈ l) (hn : n ∉ l) :
    t.filter (fun v => v.parent == n) = [] := by
  rw [List.filter_eq_nil_iff]
  intro v hv
  simp only [beq_iff_eq]
  intro hpar
  exact hn (hpar ▸ hall v hv)

/-- C3.  At an indexing node that has not yet been generated (respectively
bound), the sequence of immediate operand visits is identical across the read
code path, the write code path and the argument-binding pass: first the row
index against the outer dedup map, then the column index against the outer
dedup map, then the matrix operand under a private dedup scope.  The write
path exhibits the sequence unconditionally.  (The dedup maps and states of the
generation and binding passes are quantified independently.) -/
theorem c3_traversal_order (n : Nat) (m rowIdx colIdx : Expr)
    (d1 d2 d3 : List Nat) (st1 st2 : GenState) (rn cn : String) (vh : Bool)
    (h1 : n ∉ d1) (h3 : n ∉ d3)
    (hm : n ∉ m.ids) (hr : n ∉ rowIdx.ids) (hc : n ∉ colIdx.ids) :
    ((genParts (Expr.indexing n m rowIdx colIdx) d1 st1 rn cn vh).tr.filter
        (fun v => v.parent == n)
      = [⟨n, rowIdx.nid, Scope.outer⟩, ⟨n, colIdx.nid, Scope.outer⟩,
         ⟨n, m.nid, Scope.privScope⟩])
    ∧ ((lhsParts (Expr.indexing n m rowIdx colIdx) d2 st2 rn cn).tr.filter
        (fun v => v.parent == n)
      = [⟨n, rowIdx.nid, Scope.outer⟩, ⟨n, colIdx.nid, Scope.outer⟩,
         ⟨n, m.nid, Scope.privScope⟩])
    ∧ ((setArgs (Expr.indexing n m rowIdx colIdx) d3).tr.filter
        (fun v => v.parent == n)
      = [⟨n, rowIdx.nid, Scope.outer⟩, ⟨n, colIdx.nid, Scope.outer⟩,
         ⟨n, m.nid, Scope.privScope⟩]) := by
  refine ⟨?_, ?_, ?_⟩
  · simp only [genParts, if_neg h1]
    rw [List.filter_cons_of_pos (by simp), List.filter_append,
      List.filter_cons_of_pos (by simp), List.filter_append,
      List.filter_cons_of_pos (by simp)]
    rw [filter_parent_eq_nil _ n rowIdx.ids (gen_trace_parents _ _ _ _ _ _) hr,
      filter_parent_eq_nil _ n colIdx.ids (gen_trace_parents _ _ _ _ _ _) hc,
      filter_parent_eq_nil _ n m.ids (gen_trace_parents _ _ _ _ _ _) hm]
    simp
  · simp only [lhsParts]
    rw [List.filter_cons_of_pos (by simp), List.filter_append,
      List.filter_cons_of_pos (by simp), List.filter_append,
      List.filter_cons_of_pos (by simp)]
    rw [filter_parent_eq_nil _ n rowIdx.ids (gen_trace_parents _ _ _ _ _ _) hr,
      filter_parent_eq_nil _ n colIdx.ids (gen_trace_parents _ _ _ _ _ _) hc,
      filter_parent_eq_nil _ n m.ids (lhs_trace_parents _ _ _ _ _) hm]
    simp
  · simp only [setArgs, if_neg h3]
    rw [List.filter_cons_of_pos (by simp), List.filter_append,
      List.filter_cons_of_pos (by simp), List.filter_append,
      List.filter_cons_of_pos (by simp)]
    rw [filter_parent_eq_nil _ n rowIdx.ids (setArgs_trace_parents _ _) hr,
      filter_parent_eq_nil _ n colIdx.ids (setArgs_trace_parents _ _) hc,
      filter_parent_eq_nil _ n m.ids (setArgs_trace_parents _ _) hm]
    simp

/-- Witness for C3: on a concrete three-leaf tree with fresh dedup maps, all
three passes visit row index, column index, then matrix, with the first two
against the outer map and the matrix under a private scope. -/
theorem c3_traversal_order_witness :
    ((3 : Nat) ∉ ([] : List Nat)) ∧ ((3 : Nat) ∉ (Expr.load 0 0 [[5]] 1 1).ids)
    ∧ ((setArgs (Expr.indexing 3 (Expr.load 0 0 [[5]] 1 1)
          (Expr.load 1 1 [[0]] 1 1) (Expr.load 2 2 [[0]] 1 1)) []).tr.filter
        (fun v => v.parent == 3)
      = [⟨3, 1, Scope.outer⟩, ⟨3, 2, Scope.outer⟩, ⟨3, 0, Scope.privScope⟩]) := by
  refine ⟨by decide, by decide, ?_⟩
  exact (c3_traversal_order 3 (Expr.load 0 0 [[5]] 1 1) (Expr.load 1 1 [[0]] 1 1)
    (Expr.load 2 2 [[0]] 1 1) [] [] [] ⟨fun _ => "", fun _ => [], 0⟩
    ⟨fun _ => "", fun _ => [], 0⟩ "i" "j" false (by decide) (by decide)
    (by decide) (by decide) (by decide)).2.2

/-! ### Idempotence of code generation per dedup map -/

lemma upd_self {α : Type} (f : Nat → α) (k : Nat) : upd f k (f k) = f := by
  funext x
  by_cases h : x = k <;> simp [upd, h]

lemma nid_mem_ids (e : Expr) : e.nid ∈ e.ids := by
  cases e <;> simp [Expr.nid, Expr.ids]

/-- State of a node whose write-path generation has already run against the
given dedup map: its identity and its index operands' identities are recorded
in the map, the matrix operand has in turn run against the node's stored
private map, and the node's `var_name_` already aliases the matrix operand's. -/
inductive Regenerated : Expr → List Nat → GenState → Prop where
  | load {n : Nat} {b : Nat} {dat : List (List Int)} {r c : Int}
      {d : List Nat} {st : GenState} (hn : n ∈ d) :
      Regenerated (.load n b dat r c) d st
  | indexing {n : Nat} {m rowIdx colIdx : Expr} {d : List Nat} {st : GenState}
      (hn : n ∈ d) (hr : rowIdx.nid ∈ d) (hc : colIdx.nid ∈ d)
      (hm : Regenerated m (st.privs n) st)
      (hv : st.varNames n = st.varNames m.nid) :
      Regenerated (.indexing n m rowIdx colIdx) d st

/-- `Regenerated` only inspects the state at keys of the expression's subtree,
so it transports along state changes that agree there. -/
lemma regen_state_congr {e : Expr} {d : List Nat} {st : GenState}
    (h : Regenerated e d st) :
    ∀ st' : GenState,
      (∀ k ∈ e.ids, st'.varNames k = st.varNames k ∧ st'.privs k = st.privs k) →
      Regenerated e d st' := by
  induction h with
  | load hn =>
    intro st' _
    exact Regenerated.load hn
  | @indexing n m rowIdx colIdx d st hn hr hc hm hv ih =>
    intro st' hag
    have hnids : n ∈ (Expr.indexing n m rowIdx colIdx).ids := by simp [Expr.ids]
    have hmid : m.nid ∈ (Expr.indexing n m rowIdx colIdx).ids := by
      have := nid_mem_ids m
      simp [Expr.ids]
      tauto
    refine Regenerated.indexing hn hr hc ?_ ?_
    · rw [(hag n hnids).2]
      exact ih st' (fun k hk => hag k (by simp [Expr.ids]; tauto))
    · rw [(hag n hnids).1, (hag m.nid hmid).1]
      exact hv

/-- Running the write path from a `Regenerated` configuration emits nothing
and leaves the dedup map and the entire mutable state (in particular every
`var_name_`) unchanged. -/
lemma lhs_regenerated_run {e : Expr} {d : List Nat} {st : GenState}
    (h : Regenerated e d st) :
    ∀ rn cn : String,
      (lhsParts e d st rn cn).parts = []
        ∧ (lhsParts e d st rn cn).dedup = d
        ∧ (lhsParts e d st rn cn).st = st := by
  induction h with
  | load hn =>
    intro rn cn
    simp [lhsParts, hn]
  | @indexing n m rowIdx colIdx d st hn hr hc hm hv ih =>
    intro rn cn
    simp only [lhsParts, if_pos hn]
    rw [gen_of_mem rowIdx d st rn cn false hr]
    rw [gen_of_mem colIdx d st rn cn false hc]
    have hrun := ih (st.varNames rowIdx.nid) (st.varNames colIdx.nid)
    rw [hrun.1, hrun.2.1, hrun.2.2]
    refine ⟨rfl, rfl, ?_⟩
    apply GenState.ext_parts
    · rw [← hv]
      exact upd_self _ _
    · exact upd_self _ _
    · rfl

/-- After any write-path run over a tree with distinct node identities, the
resulting dedup map and state form a `Regenerated` configuration. -/
lemma lhs_establishes (e : Expr) :
    e.ids.Nodup →
      ∀ (d : List Nat) (st : GenState) (rn cn : String),
        Regenerated e (lhsParts e d st rn cn).dedup (lhsParts e d st rn cn).st := by
  induction e with
  | load n b dat r c =>
    intro _ d st rn cn
    by_cases h : n ∈ d
    · simp only [lhsParts, if_pos h]
      exact Regenerated.load h
    · simp only [lhsParts, if_neg h]
      exact Regenerated.load (List.mem_cons_self _ _)
  | indexing n m rowIdx colIdx ihm ihr ihc =>
    intro hnd d st rn cn
    have hnd' : (n ∉ m.ids ∧ n ∉ rowIdx.ids ∧ n ∉ colIdx.ids)
        ∧ (m.ids ++ (rowIdx.ids ++ colIdx.ids)).Nodup := by
      simpa [Expr.ids] using hnd
    have hnm : n ∉ m.ids := hnd'.1.1
    have hmdup : m.ids.Nodup := hnd'.2.of_append_left
    have hmn : m.nid ≠ n := fun h' => hnm (h' ▸ nid_mem_ids m)
    simp only [lhsParts]
    have hd0 : n ∈ (if n ∈ d then d else n :: d) := by
      by_cases h : n ∈ d <;> simp [h]
    refine Regenerated.indexing ?_ ?_ ?_ ?_ ?_
    · exact gen_dedup_mono _ _ _ _ _ _ (gen_dedup_mono _ _ _ _ _ _ hd0)
    · exact gen_dedup_mono _ _ _ _ _ _ (gen_nid_mem _ _ _ _ _ _)
    · exact gen_nid_mem _ _ _ _ _ _
    · simp only [upd_same]
      refine regen_state_congr (ihm hmdup _ _ _ _) _ ?_
      intro k hk
      have hkn : k ≠ n := fun h' => hnm (h' ▸ hk)
      exact ⟨upd_other _ _ _ _ hkn, upd_other _ _ _ _ hkn⟩
    · simp only [upd_same]
      rw [upd_other _ _ _ _ hmn]

/-- C4.  Code generation for an indexing node is idempotent per dedup map:
when the node's read-path generation has already run against a dedup map, a
second `get_kernel_parts` call against that map returns the empty fragment and
changes nothing; when its write-path generation has already run (over a tree
with distinct identities, as C++ object addresses are), a second
`get_kernel_parts_lhs` call returns the empty fragment and leaves the dedup
map and the whole mutable state — in particular `var_name_` — unchanged. -/
theorem c4_codegen_idempotent (n : Nat) (m rowIdx colIdx : Expr)
    (d : List Nat) (st : GenState) (rn cn : String) (vh : Bool)
    (hnd : (Expr.indexing n m rowIdx colIdx).ids.Nodup) :
    (genParts (Expr.indexing n m rowIdx colIdx)
        (genParts (Expr.indexing n m rowIdx colIdx) d st rn cn vh).dedup
        (genParts (Expr.indexing n m rowIdx colIdx) d st rn cn vh).st rn cn vh
      = ⟨[], [],
         (genParts (Expr.indexing n m rowIdx colIdx) d st rn cn vh).dedup,
         (genParts (Expr.indexing n m rowIdx colIdx) d st rn cn vh).st⟩)
    ∧ (lhsParts (Expr.indexing n m rowIdx colIdx)
          (lhsParts (Expr.indexing n m rowIdx colIdx) d st rn cn).dedup
          (lhsParts (Expr.indexing n m rowIdx colIdx) d st rn cn).st rn cn).parts = []
    ∧ (lhsParts (Expr.indexing n m rowIdx colIdx)
          (lhsParts (Expr.indexing n m rowIdx colIdx) d st rn cn).dedup
          (lhsParts (Expr.indexing n m rowIdx colIdx) d st rn cn).st rn cn).dedup
        = (lhsParts (Expr.indexing n m rowIdx colIdx) d st rn cn).dedup
    ∧ (lhsParts (Expr.indexing n m rowIdx colIdx)
          (lhsParts (Expr.indexing n m rowIdx colIdx) d st rn cn).dedup
          (lhsParts (Expr.indexing n m rowIdx colIdx) d st rn cn).st rn cn).st
        = (lhsParts (Expr.indexing n m rowIdx colIdx) d st rn cn).st := by
  have hsecond := lhs_regenerated_run (lhs_establishes _ hnd d st rn cn) rn cn
  exact ⟨gen_of_mem _ _ _ _ _ _ (gen_nid_mem _ _ _ _ _ _),
    hsecond.1, hsecond.2.1, hsecond.2.2⟩

/-- Witness for C4: on a concrete three-leaf indexing tree with distinct
identities, the second write-path run after a first run from a fresh map and
state emits no fragment. -/
theorem c4_codegen_idempotent_witness :
    (Expr.indexing 3 (Expr.load 0 0 [[5]] 1 1) (Expr.load 1 1 [[0]] 1 1)
        (Expr.load 2 2 [[0]] 1 1)).ids.Nodup
    ∧ (lhsParts (Expr.indexing 3 (Expr.load 0 0 [[5]] 1 1) (Expr.load 1 1 [[0]] 1 1)
          (Expr.load 2 2 [[0]] 1 1))
        (lhsParts (Expr.indexing 3 (Expr.load 0 0 [[5]] 1 1) (Expr.load 1 1 [[0]] 1 1)
            (Expr.load 2 2 [[0]] 1 1)) [] ⟨fun _ => "", fun _ => [], 0⟩ "i" "j").dedup
        (lhsParts (Expr.indexing 3 (Expr.load 0 0 [[5]] 1 1) (Expr.load 1 1 [[0]] 1 1)
            (Expr.load 2 2 [[0]] 1 1)) [] ⟨fun _ => "", fun _ => [], 0⟩ "i" "j").st
        "i" "j").parts = [] := by
  refine ⟨by decide, ?_⟩
  exact (c4_codegen_idempotent 3 (Expr.load 0 0 [[5]] 1 1) (Expr.load 1 1 [[0]] 1 1)
    (Expr.load 2 2 [[0]] 1 1) [] ⟨fun _ => "", fun _ => [], 0⟩ "i" "j" false
    (by decide)).2.1

/-! ### Unique matrix accesses -/

/-- State threaded through `get_unique_matrix_accesses`: the accumulated
access-identifier list `uids`, the map from buffer identity to assigned
identifier (`id_map`), and the next free identifier (`next_id`). -/
structure UidState where
  uids : List Nat
  idMap : Nat → Option Nat
  nextId : Nat

/-- Model of `get_unique_matrix_accesses`.  The leaf: modelled from the spec
(§4.1) — one identifier per physically distinct buffer: a buffer already in
`id_map` reports its existing identifier, otherwise it is assigned `next_id`,
which is then advanced.  The indexing node: src lines 250-263 — the matrix
operand is collected into fresh `uids2`/`id_map2` with `next_id2 = 0`, each
resulting identifier is appended offset by the incoming `next_id`, `next_id`
is advanced by `next_id2`, and only then are the row-index and column-index
operands collected against the caller's shared map. -/
def collectUids : Expr → UidState → UidState
  | .load _ b _ _ _, s =>
    match s.idMap b with
    | some u => ⟨s.uids ++ [u], s.idMap, s.nextId⟩
    | none => ⟨s.uids ++ [s.nextId], upd s.idMap b (some s.nextId), s.nextId + 1⟩
  | .indexing _ m rowIdx colIdx, s =>
    let sm := collectUids m ⟨[], fun _ => none, 0⟩
    let s1 : UidState := ⟨s.uids ++ sm.uids.map (fun u => u + s.nextId),
                          s.idMap, s.nextId + sm.nextId⟩
    collectUids colIdx (collectUids rowIdx s1)

lemma collect_nextId_mono (e : Expr) : ∀ s : UidState,
    s.nextId ≤ (collectUids e s).nextId := by
  induction e with
  | load n b dat r c =>
    intro s
    cases h : s.idMap b <;> simp [collectUids, h]
  | indexing n m rowIdx colIdx ihm ihr ihc =>
    intro s
    simp only [collectUids]
    refine le_trans ?_ (le_trans (ihr _) (ihc _))
    simp

lemma collect_idMap_values (e : Expr) : ∀ (s : UidState) (b u : Nat),
    (collectUids e s).idMap b = some u → s.idMap b = some u ∨ s.nextId ≤ u := by
  induction e with
  | load n b0 dat r c =>
    intro s b u
    cases h : s.idMap b0 with
    | some w => simp only [collectUids, h]; exact fun h' => Or.inl h'
    | none =>
      simp only [collectUids, h]
      intro h'
      by_cases hb : b = b0
      · subst hb
        rw [upd_same] at h'
        right
        have h2 := Option.some.inj h'
        omega
      · rw [upd_other _ _ _ _ hb] at h'
        exact Or.inl h'
  | indexing n m rowIdx colIdx ihm ihr ihc =>
    intro s b u
    simp only [collectUids]
    intro h'
    rcases ihc _ b u h' with h2 | h2
    · rcases ihr _ b u h2 with h3 | h3
      · exact Or.inl h3
      · right
        calc s.nextId ≤ s.nextId + (collectUids m ⟨[], fun _ => none, 0⟩).nextId := by simp
          _ ≤ u := h3
    · right
      refine le_trans ?_ h2
      refine le_trans ?_ (collect_nextId_mono rowIdx _)
      simp

lemma collect_uids_append (e : Expr) : ∀ s : UidState,
    ∃ t, (collectUids e s).uids = s.uids ++ t
      ∧ ∀ u ∈ t, (∃ b, s.idMap b = some u) ∨ s.nextId ≤ u := by
  induction e with
  | load n b dat r c =>
    intro s
    cases h : s.idMap b with
    | some w =>
      refine ⟨[w], by simp [collectUids, h], ?_⟩
      intro u hu
      simp only [List.mem_singleton] at hu
      subst hu
      exact Or.inl ⟨b, h⟩
    | none =>
      refine ⟨[s.nextId], by simp [collectUids, h], ?_⟩
      intro u hu
      simp only [List.mem_singleton] at hu
      subst hu
      exact Or.inr (le_refl _)
  | indexing n m rowIdx colIdx ihm ihr ihc =>
    intro s
    simp only [collectUids]
    obtain ⟨tr, htr, htrP⟩ := ihr ⟨s.uids ++ (collectUids m ⟨[], fun _ => none, 0⟩).uids.map
      (fun u => u + s.nextId), s.idMap, s.nextId + (collectUids m ⟨[], fun _ => none, 0⟩).nextId⟩
    obtain ⟨tc, htc, htcP⟩ := ihc (collectUids rowIdx ⟨s.uids ++ (collectUids m ⟨[], fun _ => none, 0⟩).uids.map
      (fun u => u + s.nextId), s.idMap, s.nextId + (collectUids m ⟨[], fun _ => none, 0⟩).nextId⟩)
    refine ⟨(collectUids m ⟨[], fun _ => none, 0⟩).uids.map (fun u => u + s.nextId) ++ tr ++ tc, ?_, ?_⟩
    · rw [htc, htr]
      simp
    · intro u hu
      simp only [List.mem_append, List.mem_map] at hu
      rcases hu with (hu | hu) | hu
      · obtain ⟨w, _, hw⟩ := hu
        subst hw
        exact Or.inr (by simp)
      · rcases htrP u hu with h1 | h1
        · exact Or.inl h1
        · exact Or.inr (le_trans (by simp) h1)
      · rcases htcP u hu with ⟨b, h1⟩ | h1
        · rcases collect_idMap_values rowIdx _ b u h1 with h2 | h2
          · exact Or.inl ⟨b, h2⟩
          · exact Or.inr (le_trans (by simp) h2)
        · refine Or.inr (le_trans ?_ h1)
          refine le_trans ?_ (collect_nextId_mono rowIdx _)
          simp

/-- Well-formedness of a `UidState`: assigned identifiers lie below `next_id`,
reported identifiers lie below `next_id`, and every identifier below `next_id`
has been reported. -/
def UidInv (s : UidState) : Prop :=
  (∀ b u, s.idMap b = some u → u < s.nextId)
    ∧ (∀ u ∈ s.uids, u < s.nextId)
    ∧ (∀ k, k < s.nextId → k ∈ s.uids)

lemma collect_inv (e : Expr) : ∀ s : UidState, UidInv s → UidInv (collectUids e s) := by
  induction e with
  | load n b dat r c =>
    intro s hs
    cases h : s.idMap b with
    | some w =>
      simp only [collectUids, h]
      refine ⟨hs.1, ?_, ?_⟩
      · intro u hu
        rcases List.mem_append.mp hu with hu | hu
        · exact hs.2.1 u hu
        · rw [List.mem_singleton.mp hu]
          exact hs.1 b w h
      · intro k hk
        exact List.mem_append.mpr (Or.inl (hs.2.2 k hk))
    | none =>
      simp only [collectUids, h]
      refine ⟨?_, ?_, ?_⟩
      · intro b' u h'
        simp only [upd] at h'
        show u < s.nextId + 1
        by_cases hb : b' = b
        · rw [if_pos hb] at h'
          have h2 := Option.some.inj h'
          omega
        · rw [if_neg hb] at h'
          have h2 := hs.1 b' u h'
          omega
      · intro u hu
        show u < s.nextId + 1
        rcases List.mem_append.mp hu with hu | hu
        · have h2 := hs.2.1 u hu
          omega
        · have h2 := List.mem_singleton.mp hu
          omega
      · intro k hk
        have hk' : k < s.nextId + 1 := hk
        show k ∈ s.uids ++ [s.nextId]
        by_cases hks : k < s.nextId
        · exact List.mem_append.mpr (Or.inl (hs.2.2 k hks))
        · have hkeq : k = s.nextId := by omega
          rw [hkeq]
          simp
  | indexing n m rowIdx colIdx ihm ihr ihc =>
    intro s hs
    simp only [collectUids]
    refine ihc _ (ihr _ ?_)
    have hsm : UidInv (collectUids m ⟨[], fun _ => none, 0⟩) := by
      refine ihm _ ⟨?_, ?_, ?_⟩
      · intro b u h'
        exact Option.noConfusion h'
      · intro u hu
        exact absurd hu (List.not_mem_nil u)
      · intro k hk
        exact absurd hk (Nat.not_lt_zero k)
    refine ⟨?_, ?_, ?_⟩
    · intro b u h'
      have h2 := hs.1 b u h'
      show u < s.nextId + (collectUids m ⟨[], fun _ => none, 0⟩).nextId
      omega
    · intro u hu
      show u < s.nextId + (collectUids m ⟨[], fun _ => none, 0⟩).nextId
      rcases List.mem_append.mp hu with hu | hu
      · have h2 := hs.2.1 u hu
        omega
      · obtain ⟨w, hw, hweq⟩ := List.mem_map.mp hu
        have h2 := hsm.2.1 w hw
        omega
    · intro k hk
      have hk' : k < s.nextId + (collectUids m ⟨[], fun _ => none, 0⟩).nextId := hk
      show k ∈ s.uids ++ (collectUids m ⟨[], fun _ => none, 0⟩).uids.map
        (fun u => u + s.nextId)
      by_cases hks : k < s.nextId
      · exact List.mem_append.mpr (Or.inl (hs.2.2 k hks))
      · refine List.mem_append.mpr (Or.inr ?_)
        refine List.mem_map.mpr ⟨k - s.nextId, hsm.2.2 _ (by omega), ?_⟩
        show k - s.nextId + s.nextId = k
        omega

/-- C7.  `get_unique_matrix_accesses` on an indexing node first appends the
matrix operand's identifiers, computed in a fresh private map from 0 and
offset by the incoming `next_id` — so they occupy the range
`[next_id, next_id + next_id2)`, disjoint from every identifier the caller's
well-formed map has assigned and from every identifier assigned afterwards —
then advances `next_id` by `next_id2`, the number of distinct matrix-operand
accesses, and only then collects the row-index's and the column-index's
identifiers against the caller's shared map. -/
theorem c7_unique_accesses (n : Nat) (m rowIdx colIdx : Expr) (s0 : UidState)
    (hinv : ∀ b u, s0.idMap b = some u → u < s0.nextId) :
    (collectUids (Expr.indexing n m rowIdx colIdx) s0
        = collectUids colIdx (collectUids rowIdx
            ⟨s0.uids ++ (collectUids m ⟨[], fun _ => none, 0⟩).uids.map
                (fun u => u + s0.nextId),
             s0.idMap, s0.nextId + (collectUids m ⟨[], fun _ => none, 0⟩).nextId⟩))
    ∧ (∀ u ∈ (collectUids m ⟨[], fun _ => none, 0⟩).uids.map (fun u => u + s0.nextId),
        s0.nextId ≤ u ∧ u < s0.nextId + (collectUids m ⟨[], fun _ => none, 0⟩).nextId)
    ∧ (∃ tail, (collectUids (Expr.indexing n m rowIdx colIdx) s0).uids
        = s0.uids ++ (collectUids m ⟨[], fun _ => none, 0⟩).uids.map
            (fun u => u + s0.nextId) ++ tail
        ∧ ∀ u ∈ tail, u < s0.nextId
            ∨ s0.nextId + (collectUids m ⟨[], fun _ => none, 0⟩).nextId ≤ u)
    ∧ (collectUids m ⟨[], fun _ => none, 0⟩).nextId
        = (collectUids m ⟨[], fun _ => none, 0⟩).uids.dedup.length := by
  have hsm : UidInv (collectUids m ⟨[], fun _ => none, 0⟩) := by
    refine collect_inv m _ ⟨?_, ?_, ?_⟩
    · intro b u h'
      exact Option.noConfusion h'
    · intro u hu
      exact absurd hu (List.not_mem_nil u)
    · intro k hk
      exact absurd hk (Nat.not_lt_zero k)
  refine ⟨by simp only [collectUids], ?_, ?_, ?_⟩
  · intro u hu
    obtain ⟨w, hw, hweq⟩ := List.mem_map.mp hu
    subst hweq
    have := hsm.2.1 w hw
    omega
  · obtain ⟨tr, htr, htrP⟩ := collect_uids_append rowIdx
      ⟨s0.uids ++ (collectUids m ⟨[], fun _ => none, 0⟩).uids.map (fun u => u + s0.nextId),
       s0.idMap, s0.nextId + (collectUids m ⟨[], fun _ => none, 0⟩).nextId⟩
    obtain ⟨tc, htc, htcP⟩ := collect_uids_append colIdx
      (collectUids rowIdx
        ⟨s0.uids ++ (collectUids m ⟨[], fun _ => none, 0⟩).uids.map (fun u => u + s0.nextId),
         s0.idMap, s0.nextId + (collectUids m ⟨[], fun _ => none, 0⟩).nextId⟩)
    refine ⟨tr ++ tc, ?_, ?_⟩
    · simp only [collectUids]
      rw [htc, htr]
      simp
    · intro u hu
      rcases List.mem_append.mp hu with hu | hu
      · rcases htrP u hu with ⟨b, h1⟩ | h1
        · exact Or.inl (hinv b u h1)
        · exact Or.inr h1
      · rcases htcP u hu with ⟨b, h1⟩ | h1
        · rcases collect_idMap_values rowIdx _ b u h1 with h2 | h2
          · exact Or.inl (hinv b u h2)
          · exact Or.inr h2
        · refine Or.inr (le_trans (collect_nextId_mono rowIdx
            ⟨s0.uids ++ (collectUids m ⟨[], fun _ => none, 0⟩).uids.map
                (fun u => u + s0.nextId),
             s0.idMap, s0.nextId + (collectUids m ⟨[], fun _ => none, 0⟩).nextId⟩) h1)
  · have hmem : ∀ k, k ∈ (collectUids m ⟨[], fun _ => none, 0⟩).uids.dedup
        ↔ k ∈ List.range (collectUids m ⟨[], fun _ => none, 0⟩).nextId := by
      intro k
      rw [List.mem_dedup, List.mem_range]
      exact ⟨fun h' => hsm.2.1 k h', fun h' => hsm.2.2 k h'⟩
    have hperm := (List.perm_ext_iff_of_nodup (List.nodup_dedup _)
      (List.nodup_range _)).mpr hmem
    rw [← List.length_range (collectUids m ⟨[], fun _ => none, 0⟩).nextId]
    exact hperm.length_eq.symm

/-- Witness for C7: a concrete indexing tree collected from a fresh
well-formed state. -/
theorem c7_unique_accesses_witness :
    (∀ b u, (⟨[], fun _ => none, 0⟩ : UidState).idMap b = some u → u < 0)
    ∧ (collectUids (Expr.load 0 7 [[1]] 1 1) ⟨[], fun _ => none, 0⟩).nextId
        = (collectUids (Expr.load 0 7 [[1]] 1 1) ⟨[], fun _ => none, 0⟩).uids.dedup.length := by
  refine ⟨fun b u h => Option.noConfusion h, ?_⟩
  exact (c7_unique_accesses 3 (Expr.load 0 7 [[1]] 1 1) (Expr.load 1 8 [[0]] 1 1)
    (Expr.load 2 9 [[0]] 1 1) ⟨[], fun _ => none, 0⟩
    (fun b u h => Option.noConfusion h)).2.2.2

/-! ### Deep copy, the public factory and evaluation semantics -/

/-- Deep copy.  The indexing case is src lines 72-81: all three operands are
deep-copied and a new node is built from the copies.  The leaf case is
modelled from the spec (§3): cloning produces a node with a fresh identity
(new C++ object address) over the same underlying data.  Fresh identities are
drawn from a supply counter, the spec's arena-index model of addresses. -/
def deepCopy : Expr → Nat → Expr × Nat
  | .load _ b dat r c, s => (.load s b dat r c, s + 1)
  | .indexing _ m rowIdx colIdx, s =>
    let p1 := deepCopy m s
    let p2 := deepCopy rowIdx p1.2
    let p3 := deepCopy colIdx p2.2
    (.indexing p3.2 p1.1 p2.1 p3.1, p3.2 + 1)

/-- Modelled from the spec: `as_operation_cl` wraps plain matrices into load
operations and is the identity on kernel-generator expressions; every `Expr`
of this embedding is already an operation, so it is the identity here. -/
def asOperationCl (e : Expr) : Expr := e

/-- The public factory `indexing` (src lines 290-302): the matrix argument's
operation form is deep-copied, then the `indexing_` constructor (with its
shape check) is invoked on the copy and on the two index expressions passed
through `as_operation_cl` without copying.  The new node takes the next fresh
identity. -/
def indexingFactory (mat rowIdx colIdx : Expr) (s : Nat) : Except String (Expr × Nat) :=
  let p := deepCopy (asOperationCl mat) s
  (mkIndexing p.2 p.1 (asOperationCl rowIdx) (asOperationCl colIdx)).map
    (fun e => (e, p.2 + 1))

/-- Identity-erased skeleton of an expression: every node identity replaced by
0, exposing the structural content a deep copy preserves. -/
def eraseIds : Expr → Expr
  | .load _ b dat r c => .load 0 b dat r c
  | .indexing _ m rowIdx colIdx =>
    .indexing 0 (eraseIds m) (eraseIds rowIdx) (eraseIds colIdx)

/-- Matrix-data lookup with zero default outside bounds. -/
def dataAt (dat : List (List Int)) (i j : Int) : Int :=
  if 0 ≤ i ∧ 0 ≤ j then ((dat.getD i.toNat []).getD j.toNat 0) else 0

/-- Evaluation semantics of an expression at an output position.  The
indexing case realizes src lines 109-110: the matrix operand's code is
generated with the row-index and column-index expressions' variable names
substituted for the row/col index names, so its value is read at the position
the two index expressions evaluate to — the spec's
`result[i,j] = mat[row_index[i,j], col_index[i,j]]`.  The leaf case is
modelled from the spec (kernel execution itself is not among the sources):
a load yields its matrix datum at the given position. -/
def eval : Expr → Int → Int → Int
  | .load _ _ dat _ _, i, j => dataAt dat i j
  | .indexing _ m rowIdx colIdx, i, j => eval m (eval rowIdx i j) (eval colIdx i j)

lemma deepCopy_supply (e : Expr) : ∀ s : Nat,
    s < (deepCopy e s).2
      ∧ ∀ k ∈ (deepCopy e s).1.ids, s ≤ k ∧ k < (deepCopy e s).2 := by
  induction e with
  | load n b dat r c =>
    intro s
    refine ⟨by simp [deepCopy], ?_⟩
    intro k hk
    simp only [deepCopy, Expr.ids, List.mem_singleton] at hk ⊢
    omega
  | indexing n m rowIdx colIdx ihm ihr ihc =>
    intro s
    simp only [deepCopy, Expr.ids]
    have h1 := ihm s
    have h2 := ihr (deepCopy m s).2
    have h3 := ihc (deepCopy rowIdx (deepCopy m s).2).2
    refine ⟨by omega, ?_⟩
    intro k hk
    simp only [List.mem_cons, List.mem_append] at hk
    rcases hk with hk | (hk | hk) | hk
    · omega
    · have := h1.2 k hk
      omega
    · have := h2.2 k hk
      omega
    · have := h3.2 k hk
      omega

lemma deepCopy_eraseIds (e : Expr) : ∀ s : Nat,
    eraseIds (deepCopy e s).1 = eraseIds e := by
  induction e with
  | load n b dat r c => intro s; rfl
  | indexing n m rowIdx colIdx ihm ihr ihc =>
    intro s
    simp only [deepCopy, eraseIds]
    rw [ihm, ihr, ihc]

lemma deepCopy_eval (e : Expr) : ∀ (s : Nat) (i j : Int),
    eval (deepCopy e s).1 i j = eval e i j := by
  induction e with
  | load n b dat r c => intro s i j; rfl
  | indexing n m rowIdx colIdx ihm ihr ihc =>
    intro s i j
    simp only [deepCopy, eval]
    rw [ihm, ihr, ihc]

lemma deepCopy_shape (e : Expr) : ∀ s : Nat,
    (deepCopy e s).1.rows = e.rows ∧ (deepCopy e s).1.cols = e.cols := by
  induction e with
  | load n b dat r c => intro s; exact ⟨rfl, rfl⟩
  | indexing n m rowIdx colIdx ihm ihr ihc =>
    intro s
    simp only [deepCopy, Expr.rows, Expr.cols]
    rw [(ihr _).1, (ihc _).1, (ihr _).2, (ihc _).2]
    exact ⟨rfl, rfl⟩

/-- C8.  A successful call of the public factory builds the node from a deep
copy of the matrix operand — structurally identical (same skeleton, same
evaluation), with entirely fresh identities — while the row-index and
column-index operands are passed through unchanged, not copied. -/
theorem c8_factory_deep_copies_matrix (mat rowIdx colIdx : Expr) (s : Nat)
    (e : Expr) (s' : Nat)
    (h : indexingFactory mat rowIdx colIdx s = Except.ok (e, s')) :
    e = Expr.indexing (deepCopy mat s).2 (deepCopy mat s).1 rowIdx colIdx
      ∧ eraseIds (deepCopy mat s).1 = eraseIds mat
      ∧ (∀ i j : Int, eval (deepCopy mat s).1 i j = eval mat i j)
      ∧ (deepCopy mat s).1.rows = mat.rows ∧ (deepCopy mat s).1.cols = mat.cols
      ∧ (∀ k ∈ (deepCopy mat s).1.ids, s ≤ k)
      ∧ s' = (deepCopy mat s).2 + 1 := by
  have hfac : (mkIndexing (deepCopy mat s).2 (deepCopy mat s).1 rowIdx colIdx).map
      (fun x => (x, (deepCopy mat s).2 + 1)) = Except.ok (e, s') := h
  rcases ctorCheck_ok_or_error rowIdx colIdx with hok | ⟨msg, herr⟩
  · rw [mkIndexing, hok] at hfac
    have he : e = Expr.indexing (deepCopy mat s).2 (deepCopy mat s).1 rowIdx colIdx
        ∧ s' = (deepCopy mat s).2 + 1 := by
      have := Except.ok.inj hfac
      exact ⟨congrArg Prod.fst this.symm, congrArg Prod.snd this.symm⟩
    refine ⟨he.1, deepCopy_eraseIds mat s, deepCopy_eval mat s,
      (deepCopy_shape mat s).1, (deepCopy_shape mat s).2, ?_, he.2⟩
    intro k hk
    exact ((deepCopy_supply mat s).2 k hk).1
  · rw [mkIndexing, herr] at hfac
    exact absurd hfac (by simp [Except.map])

/-- Witness for C8: a concrete factory call succeeds; the matrix operand of
the result is the fresh-identity copy and the index operands are the original
expressions. -/
theorem c8_factory_deep_copies_matrix_witness :
    indexingFactory (Expr.load 0 0 [[5]] 1 1) (Expr.load 1 1 [[0]] 1 1)
        (Expr.load 2 2 [[0]] 1 1) 10
      = Except.ok (Expr.indexing 11 (Expr.load 10 0 [[5]] 1 1)
          (Expr.load 1 1 [[0]] 1 1) (Expr.load 2 2 [[0]] 1 1), 12)
    ∧ ∀ k ∈ (deepCopy (Expr.load 0 0 [[5]] 1 1) 10).1.ids, 10 ≤ k := by
  refine ⟨by decide, ?_⟩
  exact (c8_factory_deep_copies_matrix (Expr.load 0 0 [[5]] 1 1)
    (Expr.load 1 1 [[0]] 1 1) (Expr.load 2 2 [[0]] 1 1) 10
    (Expr.indexing 11 (Expr.load 10 0 [[5]] 1 1) (Expr.load 1 1 [[0]] 1 1)
      (Expr.load 2 2 [[0]] 1 1)) 12 (by decide)).2.2.2.2.2.1

/-- C1.  End-to-end scenario: indexing a 3x3 matrix with the 2x2 row-index
matrix [[0,1],[2,0]] and the 2x2 col-index matrix [[0,0],[1,2]] through the
public factory yields a 2x2 expression satisfying
`result[i,j] = mat[row_index[i,j], col_index[i,j]]` at every position; in
particular result[0,0] = mat[0,0] = 11 and result[1,1] = mat[0,2] = 13. -/
theorem c1_indexing_scenario :
    indexingFactory (Expr.load 0 0 [[11, 12, 13], [21, 22, 23], [31, 32, 33]] 3 3)
        (Expr.load 1 1 [[0, 1], [2, 0]] 2 2) (Expr.load 2 2 [[0, 0], [1, 2]] 2 2) 10
      = Except.ok (Expr.indexing 11
          (Expr.load 10 0 [[11, 12, 13], [21, 22, 23], [31, 32, 33]] 3 3)
          (Expr.load 1 1 [[0, 1], [2, 0]] 2 2)
          (Expr.load 2 2 [[0, 0], [1, 2]] 2 2), 12)
    ∧ (Expr.indexing 11
          (Expr.load 10 0 [[11, 12, 13], [21, 22, 23], [31, 32, 33]] 3 3)
          (Expr.load 1 1 [[0, 1], [2, 0]] 2 2)
          (Expr.load 2 2 [[0, 0], [1, 2]] 2 2)).rows = 2
    ∧ (Expr.indexing 11
          (Expr.load 10 0 [[11, 12, 13], [21, 22, 23], [31, 32, 33]] 3 3)
          (Expr.load 1 1 [[0, 1], [2, 0]] 2 2)
          (Expr.load 2 2 [[0, 0], [1, 2]] 2 2)).cols = 2
    ∧ (∀ i j : Fin 2,
        eval (Expr.indexing 11
            (Expr.load 10 0 [[11, 12, 13], [21, 22, 23], [31, 32, 33]] 3 3)
            (Expr.load 1 1 [[0, 1], [2, 0]] 2 2)
            (Expr.load 2 2 [[0, 0], [1, 2]] 2 2)) (i.val : Int) (j.val : Int)
          = dataAt [[11, 12, 13], [21, 22, 23], [31, 32, 33]]
              (dataAt [[0, 1], [2, 0]] (i.val : Int) (j.val : Int))
              (dataAt [[0, 0], [1, 2]] (i.val : Int) (j.val : Int)))
    ∧ eval (Expr.indexing 11
          (Expr.load 10 0 [[11, 12, 13], [21, 22, 23], [31, 32, 33]] 3 3)
          (Expr.load 1 1 [[0, 1], [2, 0]] 2 2)
          (Expr.load 2 2 [[0, 0], [1, 2]] 2 2)) 0 0
        = dataAt [[11, 12, 13], [21, 22, 23], [31, 32, 33]] 0 0
    ∧ eval (Expr.indexing 11
          (Expr.load 10 0 [[11, 12, 13], [21, 22, 23], [31, 32, 33]] 3 3)
          (Expr.load 1 1 [[0, 1], [2, 0]] 2 2)
          (Expr.load 2 2 [[0, 0], [1, 2]] 2 2)) 1 1
        = dataAt [[11, 12, 13], [21, 22, 23], [31, 32, 33]] 0 2
    ∧ eval (Expr.indexing 11
          (Expr.load 10 0 [[11, 12, 13], [21, 22, 23], [31, 32, 33]] 3 3)
          (Expr.load 1 1 [[0, 1], [2, 0]] 2 2)
          (Expr.load 2 2 [[0, 0], [1, 2]] 2 2)) 0 0 = 11
    ∧ eval (Expr.indexing 11
          (Expr.load 10 0 [[11, 12, 13], [21, 22, 23], [31, 32, 33]] 3 3)
          (Expr.load 1 1 [[0, 1], [2, 0]] 2 2)
          (Expr.load 2 2 [[0, 0], [1, 2]] 2 2)) 1 1 = 13 := by
  decide

end StanMath
